import Mathlib

/-!
Verification of the vvile modal text editor core against its design
specification.  Text is modelled as `List Char`; byte offsets of the UTF-8
encoding are computed with `Char.utf8Size`, matching the byte-oriented
indexing of Rust strings.  Fallible or panicking operations are made total
with documented junk values on paths that are unreachable under the stated
validity hypotheses.
-/

namespace Vvile

/-- Total UTF-8 byte size of a character list, mirroring `str::len()` on the
corresponding Rust string. -/
def bsize : List Char → Nat
  | [] => 0
  | c :: s => c.utf8Size + bsize s

/-- Prefix of a string up to a byte offset, mirroring `&s[0..n]`.  When `n`
falls strictly inside a character the remainder is truncated; the Rust
slice would panic there, and that case is unreachable at the grapheme
boundaries used by the editor. -/
def takeBytes : Nat → List Char → List Char
  | _, [] => []
  | n, c :: rest => if c.utf8Size ≤ n then c :: takeBytes (n - c.utf8Size) rest else []

/-- Suffix of a string from a byte offset, mirroring `&s[n..]`.  On a
mid-character offset the partial character is dropped; the Rust slice would
panic there. -/
def dropBytes : Nat → List Char → List Char
  | _, [] => []
  | n, c :: rest =>
    if n = 0 then c :: rest
    else if c.utf8Size ≤ n then dropBytes (n - c.utf8Size) rest else rest

/-- Modelled from the spec: the repository delegates grapheme segmentation to
the external `unicode-segmentation` crate (`grapheme_indices(true)`), whose
source is not part of this repository.  Following the glossary of the spec, a
grapheme cluster is a user-perceived unit that may span several codepoints;
we model the extension rule needed here: combining diacritical marks
(U+0300 to U+036F) and the zero width joiner U+200D extend the preceding
cluster, every other character begins a new cluster. -/
def isExtend (c : Char) : Bool :=
  (0x300 ≤ c.toNat && c.toNat ≤ 0x36F) || c.toNat == 0x200D

/-- Modelled from the spec: the list of grapheme clusters of a string, in
order; concatenating them gives back the string.  A character that satisfies
`isExtend` joins the cluster that follows it in the recursion, that is, the
cluster of the preceding character; at the start of the text it opens its
own cluster. -/
def segment : List Char → List (List Char)
  | [] => []
  | c :: rest =>
    match segment rest with
    | [] => [[c]]
    | cl :: cls =>
      match cl with
      | [] => [c] :: cls
      | d :: ds => if isExtend d then (c :: d :: ds) :: cls else [c] :: (d :: ds) :: cls

/-- Byte offsets of the starts of a cluster list, threading an accumulated
offset; mirrors the offsets produced by `grapheme_indices`. -/
def clusterOffsets : Nat → List (List Char) → List Nat
  | _, [] => []
  | acc, cl :: rest => acc :: clusterOffsets (acc + bsize cl) rest

/-- Byte offset of the start of every grapheme cluster of `s`, mirroring the
loop over `grapheme_indices(true)` in `Line::rebuild`. -/
def graphemeStarts (s : List Char) : List Nat :=
  clusterOffsets 0 (segment s)

/-- A cluster is well formed when it is nonempty and every character after
the first one is an extender. -/
def goodCluster : List Char → Bool
  | [] => false
  | _ :: cs => cs.all isExtend

/-- A cluster is fresh when additionally its first character is not an
extender, so it also starts a cluster in any left context. -/
def freshCluster : List Char → Bool
  | [] => false
  | c :: cs => !isExtend c && cs.all isExtend

/-- `Line` of `src/lib/buffer.rs`: raw text plus the cached list of grapheme
cluster byte boundaries. -/
structure Line where
  raw : List Char
  graphemes : List Nat
deriving Repr, DecidableEq

/-- `Line::new`: empty text, boundary list `[0]`. -/
def Line.new : Line := ⟨[], [0]⟩

/-- `Line::rebuild`: recompute the boundary list from the raw text, pushing
the offset of every cluster start and then the total byte length. -/
def Line.rebuild (l : Line) : Line :=
  ⟨l.raw, graphemeStarts l.raw ++ [bsize l.raw]⟩

/-- `Line::grapheme_len`: number of boundaries minus one (saturating). -/
def Line.grapheme_len (l : Line) : Nat :=
  l.graphemes.length - 1

/-- `Line::insert`: splice a character at the byte offset of grapheme `i`,
then rebuild.  The Rust `Vec` index panics when `i` is out of bounds; the
embedding reads offset 0 there, unreachable under the stated bounds. -/
def Line.insert (l : Line) (i : Nat) (c : Char) : Line :=
  let off := l.graphemes.getD i 0
  Line.rebuild ⟨takeBytes off l.raw ++ c :: dropBytes off l.raw, l.graphemes⟩

/-- `Line::remove`: delete the bytes spanning `graphemes[i]..graphemes[i+1]`,
then rebuild. -/
def Line.remove (l : Line) (i : Nat) : Line :=
  let s := l.graphemes.getD i 0
  let e := l.graphemes.getD (i + 1) 0
  Line.rebuild ⟨takeBytes s l.raw ++ dropBytes e l.raw, l.graphemes⟩

/-- `Line::push_str`: append raw text and rebuild. -/
def Line.push_str (l : Line) (s : List Char) : Line :=
  Line.rebuild ⟨l.raw ++ s, l.graphemes⟩

/-- `Line::as_str`. -/
def Line.as_str (l : Line) : List Char := l.raw

/-- `Line::from_string`: take ownership of the text and rebuild. -/
def Line.from_string (s : List Char) : Line :=
  Line.rebuild ⟨s, [0]⟩

/-- `Line::grapheme_at`: the substring between boundaries `i` and `i + 1`,
or none when either index is out of range. -/
def Line.grapheme_at (l : Line) (i : Nat) : Option (List Char) := do
  let s ← l.graphemes[i]?
  let e ← l.graphemes[(i + 1)]?
  some (takeBytes (e - s) (dropBytes s l.raw))

/-- The boundary cache of the line agrees with a rebuild from its raw text.
Every line produced by the constructors and mutators of the source satisfies
this invariant. -/
def Line.WF (l : Line) : Prop :=
  l.graphemes = graphemeStarts l.raw ++ [bsize l.raw]

instance (l : Line) : Decidable l.WF := by
  unfold Line.WF; infer_instance

/-- `Location` of `src/lib/buffer.rs`. -/
structure Location where
  x : Nat
  y : Nat
deriving Repr, DecidableEq

/-- `Buffer` of `src/lib/buffer.rs`. -/
structure Buffer where
  lines : List Line
deriving Repr, DecidableEq

/-- `Buffer::default`: one empty line. -/
def Buffer.default : Buffer := ⟨[Line.new]⟩

/-- `Buffer::insert_char`: grow the line vector with empty lines until
`loc.y` is in range, then insert into that line. -/
def Buffer.insert_char (b : Buffer) (loc : Location) (c : Char) : Buffer :=
  let lines := if b.lines.isEmpty then b.lines ++ [Line.new] else b.lines
  let lines := lines ++ List.replicate (loc.y + 1 - lines.length) Line.new
  ⟨lines.set loc.y ((lines.getD loc.y Line.new).insert loc.x c)⟩

/-- `Buffer::delete_char`: no-op returning false at the document start,
otherwise remove the grapheme before `x` on line `y`, or join line `y` onto
line `y - 1` when `x = 0`.  Returns the flag together with the new buffer. -/
def Buffer.delete_char (b : Buffer) (loc : Location) : Bool × Buffer :=
  if loc.y = 0 && loc.x = 0 then (false, b)
  else
    let lines := if b.lines.isEmpty then b.lines ++ [Line.new] else b.lines
    if 0 < loc.x then
      (true, ⟨lines.set loc.y ((lines.getD loc.y Line.new).remove (loc.x - 1))⟩)
    else
      let cur := lines.getD loc.y Line.new
      let rest := lines.eraseIdx loc.y
      (true, ⟨rest.set (loc.y - 1) ((rest.getD (loc.y - 1) Line.new).push_str cur.raw)⟩)

/-- `Buffer::line_at`: the text of line `y`, or empty when out of range. -/
def Buffer.line_at (b : Buffer) (y : Nat) : List Char :=
  ((b.lines[y]?).map Line.as_str).getD []

/-- `Buffer::line_count`. -/
def Buffer.line_count (b : Buffer) : Nat := b.lines.length

/-- `Buffer::is_empty`. -/
def Buffer.is_empty (b : Buffer) : Bool := b.lines.isEmpty

/-- Join a list of lines with a newline separator, mirroring
`Vec::join("\n")`. -/
def joinNl : List (List Char) → List Char
  | [] => []
  | [p] => p
  | p :: q :: ps => p ++ '\n' :: joinNl (q :: ps)

/-- `Buffer::buffer_to_string`: collect the raw lines, pop a final empty
line when present, join with a newline separator. -/
def Buffer.buffer_to_string (b : Buffer) : List Char :=
  let out := b.lines.map Line.as_str
  let out :=
    match out.getLast? with
    | some l => if l.isEmpty then out.dropLast else out
    | none => out
  joinNl out

/-- Split on every newline character; always returns at least one piece,
the final piece being the text after the last newline.  Mirrors
`str::split('\n')`. -/
def splitAll : List Char → List (List Char)
  | [] => [[]]
  | c :: rest =>
    if c = '\n' then [] :: splitAll rest
    else
      match splitAll rest with
      | [] => [[c]]
      | p :: ps => (c :: p) :: ps

/-- Drop one trailing carriage return, as `str::lines` does on every piece
that was terminated by a newline. -/
def stripCr (l : List Char) : List Char :=
  if l.getLast? = some '\r' then l.dropLast else l

/-- The final piece of the split: kept only when nonempty, since an empty
final piece means the text ended with its last newline. -/
def lastPiece : Option (List Char) → List (List Char)
  | some [] => []
  | none => []
  | some l => [l]

/-- `str::lines`: split on newlines, drop the final piece when it is empty,
strip a trailing carriage return from every newline-terminated piece. -/
def rustLines (s : List Char) : List (List Char) :=
  let ps := splitAll s
  (ps.dropLast.map stripCr) ++ lastPiece ps.getLast?

/-- `Buffer::read_file`, after the I/O read succeeded with `contents`:
replace the lines with the split of the contents, append one empty line when
the contents end with a newline, and guarantee at least one line. -/
def Buffer.read_file (contents : List Char) : Buffer :=
  let input := (rustLines contents).map Line.from_string
  let lines := if contents.getLast? = some '\n' then input ++ [Line.new] else input
  ⟨if lines.isEmpty then [Line.new] else lines⟩

/-- Editor mode, `Mode` of `src/lib/keyhandler.rs`. -/
inductive Mode where
  | normal
  | edit
  | command
  | visual
deriving Repr, DecidableEq

/-- The editor state acted on by the key dispatch: the buffer lines, the
cursor as a grapheme column `cx` and row `cy`, and the current mode. -/
structure EditorState where
  lines : List Line
  cx : Nat
  cy : Nat
  mode : Mode
deriving Repr, DecidableEq

/-- `Editor::delete_under_cursor` of `src/lib/editor.rs`: remove the
grapheme at the cursor column when one is under the cursor, otherwise join
the next line onto the current one when a next line exists.  The cursor is
not moved. -/
def EditorState.delete_under_cursor (st : EditorState) : EditorState :=
  let line := st.lines.getD st.cy Line.new
  if st.cx < line.grapheme_len then
    { st with lines := st.lines.set st.cy (line.remove st.cx) }
  else if st.cy + 1 < st.lines.length then
    let nxt := st.lines.getD (st.cy + 1) Line.new
    let rest := st.lines.eraseIdx (st.cy + 1)
    { st with lines := rest.set st.cy ((rest.getD st.cy Line.new).push_str nxt.raw) }
  else st

/-- The `Key::Backspace` arm of `KeyHandler::handle_edit` (identical to the
arm in `Editor::handle_keys`): delete under the cursor, then move the cursor
up to the previous row when at column 0, or one column left otherwise. -/
def EditorState.editBackspace (st : EditorState) : EditorState :=
  let st := st.delete_under_cursor
  if st.cx = 0 && 0 < st.cy then
    let cy := st.cy - 1
    let prevLen := (st.lines.getD cy Line.new).grapheme_len
    { st with cy := cy, cx := min prevLen st.cx }
  else if 0 < st.cx then
    { st with cx := st.cx - 1 }
  else st

/-- The `Key::Char('a')` arm of `KeyHandler::handle_normal` (identical to
the arm in `Editor::handle_keys`): compare the cursor column with the byte
length of the current line text, advance one column when smaller, otherwise
wrap to the start of the next row when one exists; always switch to the
edit mode. -/
def EditorState.normalKeyA (st : EditorState) : EditorState :=
  let lineLen := bsize (Buffer.line_at ⟨st.lines⟩ st.cy)
  let st :=
    if st.cx < lineLen then { st with cx := st.cx + 1 }
    else if st.cy + 1 < st.lines.length then { st with cy := st.cy + 1, cx := 0 }
    else st
  { st with mode := Mode.edit }

/-- Insert an element before position `i`, mirroring `Vec::insert`; an index
past the end appends (the Rust call would panic there, unreachable under
the stated bounds). -/
def listInsertAt : Nat → Line → List Line → List Line
  | 0, v, l => v :: l
  | _ + 1, v, [] => [v]
  | n + 1, v, c :: cs => c :: listInsertAt n v cs

/-- The `Key::Char('\n')` arm of `KeyHandler::handle_edit`: split the
current line at the byte offset of the cursor grapheme, replace line `cy`
with the left part, insert the right part as line `cy + 1`, and move the
cursor to the start of the new line. -/
def EditorState.editNewline (st : EditorState) : EditorState :=
  let line := Buffer.line_at ⟨st.lines⟩ st.cy
  let off := (st.lines.getD st.cy Line.new).graphemes.getD st.cx 0
  let leftPart := takeBytes off line
  let rightPart := dropBytes off line
  let lines := st.lines.set st.cy (Line.from_string leftPart)
  let lines := listInsertAt (st.cy + 1) (Line.from_string rightPart) lines
  { st with lines := lines, cy := st.cy + 1, cx := 0 }

/-- Grapheme length of row `y` of a line list. -/
def rowLen (lines : List Line) (y : Nat) : Nat :=
  (lines.getD y Line.new).grapheme_len

/-- Modelled from the spec: `Cursor::move_left` of the module
`crate::cursor`, which is imported and called by `src/lib/editor.rs` but is
absent from the sources.  Spec 4.3: move one grapheme left; at column 0 of
a non-first row, move to the end of the previous row. -/
def moveLeft (lines : List Line) (x y : Nat) : Nat × Nat :=
  if 0 < x then (x - 1, y)
  else if 0 < y then (rowLen lines (y - 1), y - 1)
  else (x, y)

/-- Modelled from the spec: `Cursor::move_right` of the absent module
`crate::cursor`.  Spec 4.3: move one grapheme right; at the end of a row,
move to column 0 of the next row when a next row exists. -/
def moveRight (lines : List Line) (x y : Nat) : Nat × Nat :=
  if x < rowLen lines y then (x + 1, y)
  else if y + 1 < lines.length then (0, y + 1)
  else (x, y)

/-- Modelled from the spec: `Cursor::move_up` of the absent module
`crate::cursor`.  Spec 4.3: move one row up, clamping the column to the
grapheme length of the destination row when that row is shorter. -/
def moveUp (lines : List Line) (x y : Nat) : Nat × Nat :=
  let y := if 0 < y then y - 1 else y
  (min x (rowLen lines y), y)

/-- Modelled from the spec: `Cursor::move_down` of the absent module
`crate::cursor`.  Spec 4.3: move one row down when a next row exists,
clamping the column to the grapheme length of the destination row. -/
def moveDown (lines : List Line) (x y : Nat) : Nat × Nat :=
  let y := if y + 1 < lines.length then y + 1 else y
  (min x (rowLen lines y), y)

/-- Error kinds distinguished by `Editor::open_file`. -/
inductive IOErrorKind where
  | notFound
  | permissionDenied
  | otherError
deriving Repr, DecidableEq

/-- `Editor::open_file` of `src/lib/editor.rs`, with the filesystem read
modelled as an explicit argument: on success load per `read_file`, on a
not-found error fall back to the default buffer, propagate any other
error. -/
def openFile (r : Except IOErrorKind (List Char)) : Except IOErrorKind Buffer :=
  match r with
  | Except.ok contents => Except.ok (Buffer.read_file contents)
  | Except.error IOErrorKind.notFound => Except.ok Buffer.default
  | Except.error e => Except.error e

/-- A single mutation of one line: the two operations of the GraphemeLine
contract. -/
inductive LineOp where
  | ins (i : Nat) (c : Char)
  | rem (i : Nat)
deriving Repr, DecidableEq

/-- Apply one line operation. -/
def applyOp (l : Line) : LineOp → Line
  | LineOp.ins i c => l.insert i c
  | LineOp.rem i => l.remove i

/-! ### Byte arithmetic lemmas -/

theorem bsize_append (a b : List Char) : bsize (a ++ b) = bsize a + bsize b := by
  induction a with
  | nil => simp [bsize]
  | cons c a ih => simp [bsize, ih, Nat.add_assoc]

theorem takeBytes_zero (s : List Char) : takeBytes 0 s = [] := by
  cases s with
  | nil => rfl
  | cons c rest =>
    have := Char.utf8Size_pos c
    simp [takeBytes]
    omega

theorem dropBytes_zero (s : List Char) : dropBytes 0 s = s := by
  cases s with
  | nil => rfl
  | cons c rest => simp [dropBytes]

theorem takeBytes_bsize_append (a b : List Char) :
    takeBytes (bsize a) (a ++ b) = a := by
  induction a with
  | nil => simpa [bsize] using takeBytes_zero b
  | cons c a ih =>
    have h : c.utf8Size ≤ c.utf8Size + bsize a := Nat.le_add_right _ _
    show takeBytes (c.utf8Size + bsize a) (c :: (a ++ b)) = c :: a
    rw [takeBytes, if_pos h, Nat.add_sub_cancel_left, ih]

theorem dropBytes_bsize_append (a b : List Char) :
    dropBytes (bsize a) (a ++ b) = b := by
  induction a with
  | nil => simpa [bsize] using dropBytes_zero b
  | cons c a ih =>
    have hpos := Char.utf8Size_pos c
    have hne : c.utf8Size + bsize a ≠ 0 := by omega
    have h : c.utf8Size ≤ c.utf8Size + bsize a := Nat.le_add_right _ _
    show dropBytes (c.utf8Size + bsize a) (c :: (a ++ b)) = b
    rw [dropBytes, if_neg hne, if_pos h, Nat.add_sub_cancel_left, ih]

/-! ### Segmentation lemmas -/

theorem segment_cons (c : Char) (rest : List Char) :
    segment (c :: rest) =
      match segment rest with
      | [] => [[c]]
      | cl :: cls =>
        match cl with
        | [] => [c] :: cls
        | d :: ds =>
          if isExtend d then (c :: d :: ds) :: cls else [c] :: (d :: ds) :: cls :=
  rfl

theorem segment_flatten (s : List Char) : (segment s).flatten = s := by
  induction s with
  | nil => rfl
  | cons c rest ih =>
    rw [segment_cons]
    cases h : segment rest with
    | nil => rw [h] at ih; simpa using ih.symm
    | cons cl cls =>
      rw [h] at ih
      cases cl with
      | nil => simpa using ih
      | cons d ds =>
        by_cases hd : isExtend d
        · simp only [hd, if_true]
          simpa using ih
        · simp only [hd, Bool.false_eq_true, if_false]
          simpa using ih

theorem segment_shape (s : List Char) :
    ∀ cl cls, segment s = cl :: cls →
      goodCluster cl = true ∧ cls.all freshCluster = true := by
  induction s with
  | nil => intro cl cls h; simp [segment] at h
  | cons c rest ih =>
    intro cl cls h
    rw [segment_cons] at h
    cases hrest : segment rest with
    | nil =>
      rw [hrest] at h
      simp only [List.cons.injEq] at h
      obtain ⟨h1, h2⟩ := h
      subst h1; subst h2
      simp [goodCluster]
    | cons cl' cls' =>
      rw [hrest] at h
      cases cl' with
      | nil => exact absurd (ih _ _ hrest).1 (by simp [goodCluster])
      | cons d ds =>
        obtain ⟨hg, hf⟩ := ih _ _ hrest
        simp only [goodCluster] at hg
        by_cases hd : isExtend d
        · simp only [hd, if_true, List.cons.injEq] at h
          obtain ⟨h1, h2⟩ := h
          subst h1; subst h2
          constructor
          · simp only [goodCluster, List.all_cons, hd, Bool.true_and]
            exact hg
          · exact hf
        · simp only [hd, Bool.false_eq_true, if_false, List.cons.injEq] at h
          obtain ⟨h1, h2⟩ := h
          subst h1; subst h2
          constructor
          · simp [goodCluster]
          · simp only [List.all_cons, Bool.and_eq_true]
            constructor
            · simp only [freshCluster, Bool.and_eq_true, Bool.not_eq_true']
              constructor
              · simpa using hd
              · exact hg
            · exact hf

theorem segment_head (c : Char) (rest : List Char) :
    ∃ t cls, segment (c :: rest) = (c :: t) :: cls := by
  rw [segment_cons]
  cases hrest : segment rest with
  | nil => exact ⟨[], [], rfl⟩
  | cons cl cls =>
    cases cl with
    | nil => exact ⟨[], cls, rfl⟩
    | cons d ds =>
      by_cases hd : isExtend d
      · exact ⟨d :: ds, cls, by simp [hd]⟩
      · exact ⟨[], (d :: ds) :: cls, by simp [hd]⟩

theorem segment_glue (cs : List Char) :
    ∀ t c, cs.all isExtend = true →
      (t = [] ∨ ∃ d ds, t = d :: ds ∧ isExtend d = false) →
      segment (c :: (cs ++ t)) = (c :: cs) :: segment t := by
  induction cs with
  | nil =>
    intro t c _ ht
    rcases ht with rfl | ⟨d, ds, rfl, hd⟩
    · simp [segment]
    · obtain ⟨t', cls, hseg⟩ := segment_head d ds
      simp only [List.nil_append]
      rw [segment_cons, hseg]
      simp [hd]
  | cons e cs ih =>
    intro t c hall ht
    simp only [List.all_cons, Bool.and_eq_true] at hall
    obtain ⟨he, hall⟩ := hall
    have hinner : segment (e :: (cs ++ t)) = (e :: cs) :: segment t := ih t e hall ht
    simp only [List.cons_append]
    rw [segment_cons, hinner]
    simp [he]

theorem flatten_fresh_start (cls : List (List Char)) :
    cls.all freshCluster = true →
    (cls.flatten = [] ∨
      ∃ d ds, cls.flatten = d :: ds ∧ isExtend d = false) := by
  intro h
  cases cls with
  | nil => exact Or.inl rfl
  | cons cl rest =>
    simp [List.all_eq_true] at h
    obtain ⟨h1, _⟩ := h
    cases cl with
    | nil => simp [freshCluster] at h1
    | cons d ds =>
      simp [freshCluster] at h1
      exact Or.inr ⟨d, ds ++ rest.flatten, by simp, by simp [h1.1]⟩

theorem segment_flatten_fresh (cls : List (List Char)) :
    cls.all freshCluster = true → segment cls.flatten = cls := by
  induction cls with
  | nil => intro _; rfl
  | cons cl rest ih =>
    intro h
    simp only [List.all_cons, Bool.and_eq_true] at h
    obtain ⟨h1, h2⟩ := h
    cases cl with
    | nil => simp [freshCluster] at h1
    | cons c cs =>
      simp only [freshCluster, Bool.and_eq_true, Bool.not_eq_true'] at h1
      have := segment_glue cs rest.flatten c h1.2 (flatten_fresh_start rest h2)
      simp only [List.flatten_cons, List.cons_append]
      rw [this, ih h2]

theorem segment_flatten_good (cl : List Char) (cls : List (List Char)) :
    goodCluster cl = true → cls.all freshCluster = true →
    segment (cl :: cls).flatten = cl :: cls := by
  intro h1 h2
  cases cl with
  | nil => simp [goodCluster] at h1
  | cons c cs =>
    simp only [goodCluster] at h1
    have := segment_glue cs cls.flatten c h1 (flatten_fresh_start cls h2)
    simp only [List.flatten_cons, List.cons_append]
    rw [this, segment_flatten_fresh cls h2]

theorem segment_take (s : List Char) (i : Nat) :
    segment ((segment s).take i).flatten = (segment s).take i := by
  cases i with
  | zero => simp [segment]
  | succ j =>
    cases h : segment s with
    | nil => simp [segment]
    | cons cl cls =>
      obtain ⟨hg, hf⟩ := segment_shape s cl cls h
      simp only [List.take_succ_cons]
      refine segment_flatten_good cl (cls.take j) hg ?_
      rw [List.all_eq_true] at hf ⊢
      exact fun x hx => hf x (List.take_subset j cls hx)

theorem segment_drop (s : List Char) (i : Nat) :
    segment ((segment s).drop i).flatten = (segment s).drop i := by
  cases i with
  | zero => simpa using congrArg segment (segment_flatten s)
  | succ j =>
    cases h : segment s with
    | nil => simp [segment]
    | cons cl cls =>
      obtain ⟨_, hf⟩ := segment_shape s cl cls h
      simp only [List.drop_succ_cons]
      refine segment_flatten_fresh (cls.drop j) ?_
      rw [List.all_eq_true] at hf ⊢
      exact fun x hx => hf x (List.drop_subset j cls hx)

theorem segment_mem_ne_nil (s : List Char) (cl : List Char)
    (h : cl ∈ segment s) : cl ≠ [] := by
  cases hs : segment s with
  | nil => rw [hs] at h; simp at h
  | cons cl0 cls =>
    obtain ⟨hg, hf⟩ := segment_shape s cl0 cls hs
    rw [hs] at h
    rcases List.mem_cons.mp h with rfl | hmem
    · cases cl with
      | nil => simp [goodCluster] at hg
      | cons _ _ => simp
    · rw [List.all_eq_true] at hf
      have := hf cl hmem
      cases cl with
      | nil => simp [freshCluster] at this
      | cons _ _ => simp

/-! ### Boundary offset lemmas -/

theorem length_clusterOffsets (a : Nat) (cls : List (List Char)) :
    (clusterOffsets a cls).length = cls.length := by
  induction cls generalizing a with
  | nil => rfl
  | cons cl rest ih => simp [clusterOffsets, ih]

theorem clusterOffsets_getElem? (cls : List (List Char)) :
    ∀ a i, i ≤ cls.length →
      (clusterOffsets a cls ++ [a + bsize cls.flatten])[i]? =
        some (a + bsize (cls.take i).flatten) := by
  induction cls with
  | nil =>
    intro a i hi
    have : i = 0 := Nat.le_zero.mp hi
    subst this
    simp [clusterOffsets, bsize]
  | cons cl rest ih =>
    intro a i hi
    cases i with
    | zero => simp [clusterOffsets, bsize]
    | succ j =>
      have harith : a + bsize (cl :: rest).flatten = (a + bsize cl) + bsize rest.flatten := by
        simp [bsize_append, Nat.add_assoc]
      have := ih (a + bsize cl) j (by simpa using hi)
      simp only [clusterOffsets, harith, List.cons_append, List.getElem?_cons_succ]
      rw [this]
      simp [bsize_append, Nat.add_assoc]

/-- Under the boundary invariant, entry `i` of the boundary list is the byte
size of the first `i` clusters. -/
theorem Line.graphemes_getElem? (l : Line) (hwf : l.WF) (i : Nat)
    (hi : i ≤ (segment l.raw).length) :
    l.graphemes[i]? = some (bsize ((segment l.raw).take i).flatten) := by
  rw [hwf]
  unfold graphemeStarts
  have := clusterOffsets_getElem? (segment l.raw) 0 i hi
  simpa [segment_flatten] using this

theorem Line.grapheme_len_eq (l : Line) (hwf : l.WF) :
    l.grapheme_len = (segment l.raw).length := by
  rw [Line.grapheme_len, hwf]
  unfold graphemeStarts
  simp [length_clusterOffsets]

theorem raw_split (s : List Char) (i : Nat) :
    s = ((segment s).take i).flatten ++ ((segment s).drop i).flatten := by
  rw [← List.flatten_append, List.take_append_drop, segment_flatten]

theorem takeBytes_boundary (s : List Char) (i : Nat) :
    takeBytes (bsize ((segment s).take i).flatten) s =
      ((segment s).take i).flatten := by
  have h := raw_split s i
  set A := ((segment s).take i).flatten with hA
  set B := ((segment s).drop i).flatten with hB
  rw [h]
  exact takeBytes_bsize_append A B

theorem dropBytes_boundary (s : List Char) (i : Nat) :
    dropBytes (bsize ((segment s).take i).flatten) s =
      ((segment s).drop i).flatten := by
  have h := raw_split s i
  set A := ((segment s).take i).flatten with hA
  set B := ((segment s).drop i).flatten with hB
  rw [h]
  exact dropBytes_bsize_append A B

/-- Under the boundary invariant, `grapheme_at` returns exactly the `i`-th
grapheme cluster of the raw text. -/
theorem Line.grapheme_at_eq (l : Line) (hwf : l.WF) (i : Nat)
    (hi : i < (segment l.raw).length) :
    l.grapheme_at i = some ((segment l.raw)[i]) := by
  have hs := Line.graphemes_getElem? l hwf i (Nat.le_of_lt hi)
  have he := Line.graphemes_getElem? l hwf (i + 1) hi
  rw [Line.grapheme_at, hs, he]
  simp only [Option.bind_eq_bind, Option.some_bind]
  have htake : (segment l.raw).take (i + 1) =
      (segment l.raw).take i ++ [(segment l.raw)[i]] := by
    rw [List.take_succ, List.getElem?_eq_getElem hi]
    rfl
  have hdrop : ((segment l.raw).drop i).flatten =
      ((segment l.raw)[i]) ++ ((segment l.raw).drop (i + 1)).flatten := by
    conv_lhs => rw [List.drop_eq_getElem_cons hi]
    simp only [List.flatten_cons]
  have harith : bsize ((segment l.raw).take (i + 1)).flatten -
      bsize ((segment l.raw).take i).flatten = bsize ((segment l.raw)[i]) := by
    rw [htake]
    simp only [List.flatten_append, bsize_append, List.flatten_cons,
      List.flatten_nil, List.append_nil]
    omega
  rw [harith, dropBytes_boundary, hdrop, takeBytes_bsize_append]

/-- Every constructor and mutator of `Line` yields a line satisfying the
boundary invariant. -/
theorem Line.rebuild_WF (l : Line) : (Line.rebuild l).WF := rfl

theorem Line.new_WF : Line.new.WF := by decide

theorem Line.from_string_WF (s : List Char) : (Line.from_string s).WF := rfl

theorem Line.insert_WF (l : Line) (i : Nat) (c : Char) : (l.insert i c).WF := rfl

theorem Line.remove_WF (l : Line) (i : Nat) : (l.remove i).WF := rfl

theorem Line.push_str_WF (l : Line) (s : List Char) : (l.push_str s).WF := rfl

theorem Line.from_string_raw (s : List Char) : (Line.from_string s).raw = s := rfl

/-! ### Helper lemmas for the buffer level claims -/

theorem listInsertAt_length (n : Nat) (v : Line) (l : List Line) :
    (listInsertAt n v l).length = l.length + 1 := by
  induction l generalizing n with
  | nil => cases n <;> rfl
  | cons c cs ih =>
    cases n with
    | zero => rfl
    | succ m => simp [listInsertAt, ih]

theorem length_guard (L : List Line) :
    1 ≤ (if L.isEmpty then [Line.new] else L).length := by
  by_cases h : L.isEmpty
  · simp [h]
  · have : 0 < L.length := List.length_pos.mpr (by simpa [List.isEmpty_iff] using h)
    simpa [h] using this

theorem guard_of_ne_nil (L : List Line) (h : L ≠ []) :
    (if L.isEmpty then L ++ [Line.new] else L) = L := by
  simp [List.isEmpty_iff, h]

/-! ### Line splitting lemmas for the round-trip claim -/

theorem splitAll_ne_nil (s : List Char) : splitAll s ≠ [] := by
  cases s with
  | nil => simp [splitAll]
  | cons c rest =>
    by_cases h : c = '\n'
    · simp [splitAll, h]
    · simp only [splitAll, h, if_false]
      cases hs : splitAll rest <;> simp

theorem joinNl_splitAll (s : List Char) : joinNl (splitAll s) = s := by
  induction s with
  | nil => rfl
  | cons c rest ih =>
    by_cases h : c = '\n'
    · subst h
      simp only [splitAll, if_pos rfl]
      cases hs : splitAll rest with
      | nil => exact absurd hs (splitAll_ne_nil rest)
      | cons p ps =>
        rw [hs] at ih
        show ([] : List Char) ++ '\n' :: joinNl (p :: ps) = '\n' :: rest
        simp [joinNl, ih]
    · simp only [splitAll, h, if_false]
      cases hs : splitAll rest with
      | nil => exact absurd hs (splitAll_ne_nil rest)
      | cons p ps =>
        rw [hs] at ih
        cases ps with
        | nil => simpa [joinNl] using congrArg (c :: ·) ih
        | cons q qs =>
          show (c :: p) ++ '\n' :: joinNl (q :: qs) = c :: rest
          simp only [joinNl] at ih
          simp [joinNl, ih]

theorem splitAll_cons (c : Char) (rest : List Char) :
    splitAll (c :: rest) =
      if c = '\n' then [] :: splitAll rest
      else
        match splitAll rest with
        | [] => [[c]]
        | p :: ps => (c :: p) :: ps :=
  rfl

theorem splitAll_append_newline (s : List Char) :
    splitAll (s ++ ['\n']) = splitAll s ++ [[]] := by
  induction s with
  | nil => rfl
  | cons c rest ih =>
    rw [List.cons_append, splitAll_cons, splitAll_cons]
    by_cases h : c = '\n'
    · rw [if_pos h, if_pos h, ih]
      rfl
    · rw [if_neg h, if_neg h, ih]
      cases hs : splitAll rest with
      | nil => exact absurd hs (splitAll_ne_nil rest)
      | cons p ps => rfl

/-- Appending one character other than a newline extends the final piece of
the split and leaves the earlier pieces unchanged. -/
theorem splitAll_concat_ne (s : List Char) (c : Char) (hc : ¬ c = '\n') :
    ∃ ps p, splitAll s = ps ++ [p] ∧ splitAll (s ++ [c]) = ps ++ [p ++ [c]] := by
  induction s with
  | nil =>
    refine ⟨[], [], rfl, ?_⟩
    rw [List.nil_append, splitAll_cons, if_neg hc]
    rfl
  | cons d rest ih =>
    obtain ⟨ps, p, h1, h2⟩ := ih
    by_cases hd : d = '\n'
    · refine ⟨[] :: ps, p, ?_, ?_⟩
      · rw [splitAll_cons, if_pos hd, h1]
        rfl
      · rw [List.cons_append, splitAll_cons, if_pos hd, h2]
        rfl
    · cases ps with
      | nil =>
        refine ⟨[], d :: p, ?_, ?_⟩
        · rw [splitAll_cons, if_neg hd, h1]
          rfl
        · rw [List.cons_append, splitAll_cons, if_neg hd, h2]
          rfl
      | cons q qs =>
        refine ⟨(d :: q) :: qs, p, ?_, ?_⟩
        · rw [splitAll_cons, if_neg hd, h1]
          rfl
        · rw [List.cons_append, splitAll_cons, if_neg hd, h2]
          rfl

theorem mem_of_mem_splitAll (s : List Char) :
    ∀ p, p ∈ splitAll s → ∀ c, c ∈ p → c ∈ s := by
  induction s with
  | nil =>
    intro p hp c hc
    simp [splitAll] at hp
    subst hp
    simp at hc
  | cons d rest ih =>
    intro p hp c hc
    rw [splitAll_cons] at hp
    by_cases hd : d = '\n'
    · rw [if_pos hd] at hp
      rcases List.mem_cons.mp hp with rfl | hp
      · simp at hc
      · exact List.mem_cons_of_mem _ (ih p hp c hc)
    · rw [if_neg hd] at hp
      cases hs : splitAll rest with
      | nil => exact absurd hs (splitAll_ne_nil rest)
      | cons q qs =>
        rw [hs] at hp
        have hred : (match q :: qs with
            | [] => [[d]]
            | p :: ps => (d :: p) :: ps) = (d :: q) :: qs := rfl
        rw [hred] at hp
        rcases List.mem_cons.mp hp with rfl | hp
        · rcases List.mem_cons.mp hc with rfl | hc
          · exact List.mem_cons_self _ _
          · exact List.mem_cons_of_mem _
              (ih q (by rw [hs]; exact List.mem_cons_self _ _) c hc)
        · exact List.mem_cons_of_mem _
            (ih p (by rw [hs]; exact List.mem_cons_of_mem _ hp) c hc)

theorem stripCr_of_no_cr (p : List Char) (h : '\r' ∉ p) : stripCr p = p := by
  rw [stripCr]
  split_ifs with hcr
  · exfalso
    obtain ⟨ys, rfl⟩ := List.getLast?_eq_some_iff.mp hcr
    exact h (by simp)
  · rfl

theorem map_stripCr_of_no_cr (ps : List (List Char)) (h : ∀ p ∈ ps, '\r' ∉ p) :
    ps.map stripCr = ps := by
  rw [List.map_congr_left (fun p hp => stripCr_of_no_cr p (h p hp))]
  simp

theorem lastPiece_some_ne (l : List Char) (h : l ≠ []) : lastPiece (some l) = [l] := by
  cases l with
  | nil => exact absurd rfl h
  | cons a as => rfl

theorem map_as_str_from_string (ps : List (List Char)) :
    ((ps.map Line.from_string).map Line.as_str) = ps := by
  rw [List.map_map]
  rw [List.map_congr_left
    (fun p _ => (rfl : (Line.as_str ∘ Line.from_string) p = id p))]
  exact List.map_id ps

/-- Case split form of `buffer_to_string`: the final line is popped exactly
when it is empty. -/
theorem buffer_to_string_eq (b : Buffer) :
    b.buffer_to_string =
      if (b.lines.map Line.as_str).getLast? = some [] then
        joinNl (b.lines.map Line.as_str).dropLast
      else joinNl (b.lines.map Line.as_str) := by
  unfold Buffer.buffer_to_string
  cases h : (b.lines.map Line.as_str).getLast? with
  | none => simp [h]
  | some l =>
    cases l with
    | nil => simp [h]
    | cons a as => simp [h]

/-- Under the boundary invariant, `remove i` deletes exactly the bytes of
grapheme cluster `i` from the raw text. -/
theorem Line.remove_raw (l : Line) (hwf : l.WF) (i : Nat)
    (hi : i < (segment l.raw).length) :
    (l.remove i).raw = ((segment l.raw).eraseIdx i).flatten := by
  have hs := Line.graphemes_getElem? l hwf i (Nat.le_of_lt hi)
  have he := Line.graphemes_getElem? l hwf (i + 1) hi
  show takeBytes (l.graphemes.getD i 0) l.raw ++
      dropBytes (l.graphemes.getD (i + 1) 0) l.raw = _
  rw [List.getD_eq_getElem?_getD, hs, List.getD_eq_getElem?_getD, he]
  simp only [Option.getD_some]
  rw [takeBytes_boundary, dropBytes_boundary, List.eraseIdx_eq_take_drop_succ,
    List.flatten_append]

/-- Removing a grapheme strictly shortens the raw text, because grapheme
clusters are nonempty. -/
theorem Line.remove_raw_length (l : Line) (hwf : l.WF) (i : Nat)
    (hi : i < (segment l.raw).length) :
    ((l.remove i).raw).length < l.raw.length := by
  rw [Line.remove_raw l hwf i hi]
  have hcl : (segment l.raw)[i] ≠ [] :=
    segment_mem_ne_nil _ _ (List.getElem_mem hi)
  have hdrop : ((segment l.raw).drop i).flatten =
      ((segment l.raw)[i]) ++ ((segment l.raw).drop (i + 1)).flatten := by
    conv_lhs => rw [List.drop_eq_getElem_cons hi]
    simp only [List.flatten_cons]
  have h1 : l.raw.length = ((segment l.raw).take i).flatten.length +
      (((segment l.raw)[i]).length +
        ((segment l.raw).drop (i + 1)).flatten.length) := by
    conv_lhs => rw [raw_split l.raw i]
    rw [List.length_append, hdrop, List.length_append]
  have h2 : 0 < ((segment l.raw)[i]).length := List.length_pos.mpr hcl
  rw [List.eraseIdx_eq_take_drop_succ, List.flatten_append, List.length_append]
  omega

/-- Reduction of `delete_char` in the backward-remove branch. -/
theorem delete_char_pos (b : Buffer) (x y : Nat) (hy : y < b.lines.length)
    (hxpos : 0 < x) :
    b.delete_char ⟨x, y⟩ =
      (true, ⟨b.lines.set y ((b.lines.getD y Line.new).remove (x - 1))⟩) := by
  have hguard : (if b.lines.isEmpty then b.lines ++ [Line.new] else b.lines) = b.lines :=
    guard_of_ne_nil _ (by intro h0; rw [h0] at hy; simp at hy)
  have hx0 : ¬ x = 0 := by omega
  simp only [Buffer.delete_char, hx0, hguard, hxpos, if_true]
  simp

/-- Reduction of `delete_char` in the line-join branch. -/
theorem delete_char_join (b : Buffer) (y : Nat) (hy : y < b.lines.length)
    (hypos : 0 < y) :
    b.delete_char ⟨0, y⟩ =
      (true, ⟨(b.lines.eraseIdx y).set (y - 1)
        (((b.lines.eraseIdx y).getD (y - 1) Line.new).push_str
          ((b.lines.getD y Line.new).raw))⟩) := by
  have hguard : (if b.lines.isEmpty then b.lines ++ [Line.new] else b.lines) = b.lines :=
    guard_of_ne_nil _ (by intro h0; rw [h0] at hy; simp at hy)
  have hy0 : ¬ y = 0 := by omega
  simp only [Buffer.delete_char, hy0, hguard]
  simp

theorem getD_eraseIdx_pred (L : List Line) (y : Nat) (hypos : 0 < y) :
    (L.eraseIdx y).getD (y - 1) Line.new = L.getD (y - 1) Line.new := by
  rw [List.getD_eq_getElem?_getD, List.getD_eq_getElem?_getD, List.getElem?_eraseIdx,
    if_pos (by omega)]

/-- Setting the predecessor entry of an erased list, written as an explicit
take and drop decomposition. -/
theorem set_eraseIdx_join_form (L : List Line) (y : Nat) (v : Line)
    (hy : y < L.length) (hypos : 0 < y) :
    (L.eraseIdx y).set (y - 1) v = L.take (y - 1) ++ v :: L.drop (y + 1) := by
  rw [List.eraseIdx_eq_take_drop_succ, List.set_append]
  have hlt : y - 1 < (L.take y).length := by
    rw [List.length_take]
    omega
  rw [if_pos hlt]
  have hy1 : y - 1 + 1 = y := by omega
  have htake : L.take y = L.take (y - 1) ++ [L[y - 1]] := by
    conv_lhs => rw [← hy1]
    rw [List.take_succ, List.getElem?_eq_getElem (by omega : y - 1 < L.length)]
    rfl
  rw [htake, List.set_append]
  have hlen1 : (L.take (y - 1)).length = y - 1 := by
    rw [List.length_take]
    omega
  rw [if_neg (by rw [hlen1]; omega), hlen1, Nat.sub_self]
  simp

theorem listInsertAt_getElem?_lt (n : Nat) (v : Line) (l : List Line) (j : Nat)
    (hj : j < n) (hn : n ≤ l.length) : (listInsertAt n v l)[j]? = l[j]? := by
  induction l generalizing n j with
  | nil =>
    simp only [List.length_nil] at hn
    omega
  | cons c cs ih =>
    cases n with
    | zero => omega
    | succ m =>
      simp only [listInsertAt]
      cases j with
      | zero => simp
      | succ k =>
        simp only [List.getElem?_cons_succ]
        exact ih m k (by omega) (by simpa using hn)

theorem listInsertAt_getElem?_self (n : Nat) (v : Line) (l : List Line)
    (hn : n ≤ l.length) : (listInsertAt n v l)[n]? = some v := by
  induction l generalizing n with
  | nil =>
    have : n = 0 := by simpa using hn
    subst this
    rfl
  | cons c cs ih =>
    cases n with
    | zero => rfl
    | succ m =>
      simp only [listInsertAt, List.getElem?_cons_succ]
      exact ih m (by simpa using hn)

theorem listInsertAt_getElem?_gt (n : Nat) (v : Line) (l : List Line) (j : Nat)
    (hj : n < j) : (listInsertAt n v l)[j]? = l[j - 1]? := by
  induction l generalizing n j with
  | nil =>
    cases n with
    | zero =>
      cases j with
      | zero => omega
      | succ k => simp [listInsertAt]
    | succ m =>
      cases j with
      | zero => omega
      | succ k =>
        simp only [listInsertAt, Nat.add_sub_cancel]
        cases k with
        | zero => omega
        | succ k2 => simp
  | cons c cs ih =>
    cases n with
    | zero =>
      cases j with
      | zero => omega
      | succ k =>
        simp only [listInsertAt, List.getElem?_cons_succ, Nat.add_sub_cancel]
    | succ m =>
      cases j with
      | zero => omega
      | succ k =>
        simp only [listInsertAt, List.getElem?_cons_succ, Nat.add_sub_cancel]
        rw [ih m k (by omega)]
        have hk : 0 < k := by omega
        have hk1 : k - 1 + 1 = k := by omega
        conv_rhs => rw [← hk1]
        simp only [List.getElem?_cons_succ]

theorem line_at_eq (lines : List Line) (y : Nat) (hy : y < lines.length) :
    Buffer.line_at ⟨lines⟩ y = (lines.getD y Line.new).raw := by
  simp [Buffer.line_at, List.getElem?_eq_getElem hy, Line.as_str,
    List.getD_eq_getElem?_getD]

/-! ### Claim theorems -/

/-- Claim C10: when the cursor sits at the end-of-line position of the last
line of the buffer, delete-under-cursor (the Normal mode x and s action)
leaves the editor state, in particular the buffer, completely unchanged. -/
theorem C10_delete_at_end_noop (st : EditorState)
    (hx : st.cx = (st.lines.getD st.cy Line.new).grapheme_len)
    (hy : st.cy + 1 = st.lines.length) :
    st.delete_under_cursor = st := by
  rw [List.getD_eq_getElem?_getD] at hx
  have h1 : ¬ st.cx < (st.lines[st.cy]?.getD Line.new).grapheme_len := by omega
  have h2 : ¬ st.cy + 1 < st.lines.length := by omega
  simp [EditorState.delete_under_cursor, h1, h2]

/-- Witness for C10 at the one line buffer containing the text a with the
cursor at the end-of-line position. -/
theorem C10_delete_at_end_noop_witness :
    EditorState.delete_under_cursor ⟨[Line.from_string ['a']], 1, 0, Mode.normal⟩
      = ⟨[Line.from_string ['a']], 1, 0, Mode.normal⟩ :=
  C10_delete_at_end_noop ⟨[Line.from_string ['a']], 1, 0, Mode.normal⟩ (by decide) (by decide)

/-- Claim C9: open_file falls back to the default one empty line buffer on a
not-found read error, propagates every other error kind unchanged, loads the
read contents per read_file on success, and an empty file yields exactly one
empty line. -/
theorem C9_open_file :
    openFile (Except.error IOErrorKind.notFound) = Except.ok Buffer.default ∧
    (∀ e : IOErrorKind, e ≠ IOErrorKind.notFound →
      openFile (Except.error e) = Except.error e) ∧
    (∀ contents, openFile (Except.ok contents) =
      Except.ok (Buffer.read_file contents)) ∧
    (Buffer.read_file []).lines = [Line.new] := by
  refine ⟨rfl, ?_, fun _ => rfl, by decide⟩
  intro e he
  cases e with
  | notFound => exact absurd rfl he
  | permissionDenied => rfl
  | otherError => rfl

/-- Witness for C9: a permission-denied error is propagated unchanged. -/
theorem C9_open_file_witness :
    openFile (Except.error IOErrorKind.permissionDenied) =
      Except.error IOErrorKind.permissionDenied :=
  C9_open_file.2.1 IOErrorKind.permissionDenied (by decide)

/-- Claim C2 evaluated at the failing input: the buffer holds the single
line ab and the cursor sits at column 1 in Insert mode.  The claim states
that backspace removes the grapheme before the cursor, the a, leaving the
line b, and never the grapheme under the cursor.  The code removes the
grapheme under the cursor, the b, leaving the line a with the cursor at
column 0. -/
theorem C2_backspace_deletes_under_cursor :
    (EditorState.editBackspace ⟨[Line.from_string ['a', 'b']], 1, 0, Mode.edit⟩).lines.map
        Line.raw = [['a']] ∧
    (EditorState.editBackspace ⟨[Line.from_string ['a', 'b']], 1, 0, Mode.edit⟩).cx = 0 ∧
    (EditorState.editBackspace ⟨[Line.from_string ['a', 'b']], 1, 0, Mode.edit⟩).cy = 0 ∧
    [['a']] ≠ [[('b' : Char)]] := by
  decide

/-- Claim C5 evaluated at the failing input: the buffer holds the lines
é and b, with the cursor at column 1 of row 0, which is the end-of-line
position since é is a single grapheme.  The claim states that the a key
wraps the cursor to (0, 1).  The code compares the column with the byte
length 2 of é, so it advances the column to 2, which exceeds the grapheme
length 1 of the row, and the boundary index that a following insertion
would read does not exist. -/
theorem C5_a_key_exceeds_grapheme_length :
    (EditorState.normalKeyA
        ⟨[Line.from_string ['é'], Line.from_string ['b']], 1, 0, Mode.normal⟩).cx = 2 ∧
    (EditorState.normalKeyA
        ⟨[Line.from_string ['é'], Line.from_string ['b']], 1, 0, Mode.normal⟩).cy = 0 ∧
    (EditorState.normalKeyA
        ⟨[Line.from_string ['é'], Line.from_string ['b']], 1, 0, Mode.normal⟩).mode =
      Mode.edit ∧
    (Line.from_string ['é']).grapheme_len = 1 ∧
    (Line.from_string ['é']).graphemes[2]? = none := by
  decide

/-- Claim C4 as stated is false: inserting the combining acute accent
U+0301 into the one grapheme line e gives a line with one grapheme, not
two, because the inserted character merges with the preceding cluster. -/
theorem C4_count_counterexample :
    ((Line.from_string ['e']).insert 1 (Char.ofNat 0x301)).grapheme_len ≠
      (Line.from_string ['e']).grapheme_len + 1 := by
  decide

/-- Claim C4, amended: after any sequence of insert and remove operations on
a well formed line, the line stays well formed, grapheme_len equals the
number of grapheme clusters of the current text, and every grapheme_at
below that length returns exactly the corresponding grapheme cluster, which
is nonempty. -/
theorem C4_grapheme_ops_amended (ops : List LineOp) (l : Line) (hwf : l.WF) :
    (ops.foldl applyOp l).WF ∧
    (ops.foldl applyOp l).grapheme_len = (segment (ops.foldl applyOp l).raw).length ∧
    ∀ i : Nat, ∀ hi : i < (segment (ops.foldl applyOp l).raw).length,
      (ops.foldl applyOp l).grapheme_at i =
        some ((segment (ops.foldl applyOp l).raw)[i]) ∧
      (segment (ops.foldl applyOp l).raw)[i] ≠ [] := by
  have hw : (ops.foldl applyOp l).WF := by
    induction ops generalizing l with
    | nil => exact hwf
    | cons op rest ih =>
      rw [List.foldl_cons]
      refine ih (applyOp l op) ?_
      cases op with
      | ins i c => exact Line.insert_WF l i c
      | rem i => exact Line.remove_WF l i
  refine ⟨hw, Line.grapheme_len_eq _ hw, ?_⟩
  intro i hi
  exact ⟨Line.grapheme_at_eq _ hw i hi,
    segment_mem_ne_nil _ _ (List.getElem_mem hi)⟩

/-- Witness for C4 amended: one insertion of the letter a into the empty
line. -/
theorem C4_grapheme_ops_amended_witness :
    ([LineOp.ins 0 'a'].foldl applyOp Line.new).WF :=
  (C4_grapheme_ops_amended [LineOp.ins 0 'a'] Line.new (by decide)).1

/-- Claim C7: the four cursor movements.  move_left at column 0 of a
non-first row lands at the grapheme length of the previous row; move_right
strictly inside a row advances by one, staying at most at the end-of-line
position, and at the end-of-line position wraps to the start of the next
row when one exists; move_up and move_down move one row and clamp the
column to the grapheme length of the destination row. -/
theorem C7_cursor_moves (lines : List Line) (x y : Nat)
    (hy : y < lines.length) (hx : x ≤ rowLen lines y) :
    (0 < y → moveLeft lines 0 y = (rowLen lines (y - 1), y - 1)) ∧
    (x < rowLen lines y →
      moveRight lines x y = (x + 1, y) ∧ x + 1 ≤ rowLen lines y) ∧
    (x = rowLen lines y → y + 1 < lines.length →
      moveRight lines x y = (0, y + 1)) ∧
    (moveUp lines x y =
      (min x (rowLen lines (if 0 < y then y - 1 else y)), if 0 < y then y - 1 else y) ∧
      (moveUp lines x y).1 ≤ rowLen lines (moveUp lines x y).2) ∧
    (moveDown lines x y =
      (min x (rowLen lines (if y + 1 < lines.length then y + 1 else y)),
        if y + 1 < lines.length then y + 1 else y) ∧
      (moveDown lines x y).1 ≤ rowLen lines (moveDown lines x y).2) := by
  refine ⟨?_, ?_, ?_, ⟨rfl, ?_⟩, ⟨rfl, ?_⟩⟩
  · intro h
    simp [moveLeft, h]
  · intro h
    exact ⟨by simp [moveRight, h], by omega⟩
  · intro h1 h2
    subst h1
    simp [moveRight, h2]
  · exact Nat.min_le_right _ _
  · exact Nat.min_le_right _ _

/-- Witness for C7 on the two line buffer with texts ab and c, cursor at
the end of row 0. -/
theorem C7_cursor_moves_witness :
    moveRight [Line.from_string ['a', 'b'], Line.from_string ['c']] 2 0 = (0, 1) :=
  (C7_cursor_moves [Line.from_string ['a', 'b'], Line.from_string ['c']] 2 0
    (by decide) (by decide)).2.2.1 (by decide) (by decide)

/-- Claim C8: every buffer mutation preserves the at-least-one-line
invariant, and the default buffer has exactly one empty line.  insert_char
and read_file even establish the invariant unconditionally; delete_char and
the dispatcher line join preserve it from a nonempty buffer; the dispatcher
line split always grows the line count by one. -/
theorem C8_buffer_never_empty :
    Buffer.default.lines = [Line.new] ∧
    (∀ (b : Buffer) (loc : Location) (c : Char),
      1 ≤ (Buffer.insert_char b loc c).lines.length) ∧
    (∀ (b : Buffer) (loc : Location), 1 ≤ b.lines.length →
      1 ≤ (Buffer.delete_char b loc).2.lines.length) ∧
    (∀ contents, 1 ≤ (Buffer.read_file contents).lines.length) ∧
    (∀ st : EditorState, (st.editNewline).lines.length = st.lines.length + 1) ∧
    (∀ st : EditorState, 1 ≤ st.lines.length →
      1 ≤ (st.delete_under_cursor).lines.length) := by
  refine ⟨rfl, ?_, ?_, ?_, ?_, ?_⟩
  · intro b loc c
    by_cases hb : b.lines.isEmpty
    · simp only [Buffer.insert_char, hb, if_true, List.length_set, List.length_append,
        List.length_replicate]
      omega
    · have h0 : 0 < b.lines.length :=
        List.length_pos.mpr (by simpa [List.isEmpty_iff] using hb)
      simp only [Buffer.insert_char, hb, if_false, List.length_set, List.length_append,
        List.length_replicate]
      omega
  · intro b loc h
    by_cases h0 : loc.y = 0 ∧ loc.x = 0
    · simpa [Buffer.delete_char, h0.1, h0.2] using h
    · have hcond : (loc.y = 0 && loc.x = 0) = false := by
        rcases Decidable.not_and_iff_or_not.mp h0 with hy | hx
        · simp [hy]
        · simp [hx]
      by_cases hx : 0 < loc.x
      · by_cases hb : b.lines.isEmpty
        · simp [Buffer.delete_char, hcond, hx, hb, List.length_set]
        · have hp : 0 < b.lines.length :=
            List.length_pos.mpr (by simpa [List.isEmpty_iff] using hb)
          simp only [Buffer.delete_char, hcond, Bool.false_eq_true, if_false, hb, hx,
            if_true, List.length_set]
          omega
      · have hy : loc.y ≠ 0 := by
          intro hyy
          exact h0 ⟨hyy, by omega⟩
        by_cases hb : b.lines.isEmpty
        · exact absurd (by simpa [List.isEmpty_iff, List.length_pos] using h)
            (by simpa using hb)
        · have hp : 0 < b.lines.length :=
            List.length_pos.mpr (by simpa [List.isEmpty_iff] using hb)
          simp only [Buffer.delete_char, hcond, Bool.false_eq_true, if_false, hb, hx,
            List.length_set, List.length_eraseIdx]
          split_ifs with hlt
          · omega
          · omega
  · intro contents
    exact length_guard _
  · intro st
    simp [EditorState.editNewline, listInsertAt_length, List.length_set]
  · intro st h
    by_cases h1 : st.cx < (st.lines[st.cy]?.getD Line.new).grapheme_len
    · simpa [EditorState.delete_under_cursor, List.getD_eq_getElem?_getD, h1,
        List.length_set] using h
    · by_cases h2 : st.cy + 1 < st.lines.length
      · simp only [EditorState.delete_under_cursor, List.getD_eq_getElem?_getD, h1,
          if_false, h2, if_true, List.length_set, List.length_eraseIdx]
        omega
      · simpa [EditorState.delete_under_cursor, List.getD_eq_getElem?_getD, h1, h2] using h

/-- Witness for C8: the hypothesis-bearing conjuncts evaluated on a one line
buffer with the text a. -/
theorem C8_buffer_never_empty_witness :
    1 ≤ (Buffer.delete_char ⟨[Line.from_string ['a']]⟩ ⟨1, 0⟩).2.lines.length ∧
    1 ≤ (EditorState.delete_under_cursor
      ⟨[Line.from_string ['a']], 0, 0, Mode.normal⟩).lines.length :=
  ⟨C8_buffer_never_empty.2.2.1 ⟨[Line.from_string ['a']]⟩ ⟨1, 0⟩ (by decide),
    C8_buffer_never_empty.2.2.2.2.2 ⟨[Line.from_string ['a']], 0, 0, Mode.normal⟩ (by decide)⟩

/-- Claim C1 as stated is false: the text a followed by a newline loads as
the two line buffer with the text a and a trailing empty line, but
serializing pops the empty line and joins without restoring the final
newline, producing the single character a. -/
theorem C1_roundtrip_counterexample :
    Buffer.buffer_to_string (Buffer.read_file ['a', '\n']) = ['a'] ∧
    Buffer.buffer_to_string (Buffer.read_file ['a', '\n']) ≠ ['a', '\n'] := by
  decide

/-- Claim C1, amended: for text without carriage returns, loading followed
by serializing reproduces the text exactly when it does not end with a
newline; when it ends with a newline the trailing empty line is popped and
the final newline is lost, yielding the text with its last character
removed. -/
theorem C1_roundtrip_amended (T : List Char) (hcr : '\r' ∉ T) :
    Buffer.buffer_to_string (Buffer.read_file T) =
      if T.getLast? = some '\n' then T.dropLast else T := by
  by_cases hnl : T.getLast? = some '\n'
  · obtain ⟨s0, rfl⟩ := List.getLast?_eq_some_iff.mp hnl
    rw [if_pos hnl, List.dropLast_concat]
    have hsplit : splitAll (s0 ++ ['\n']) = splitAll s0 ++ [[]] :=
      splitAll_append_newline s0
    have hnocr : ∀ p ∈ splitAll s0, '\r' ∉ p := by
      intro p hp hRin
      exact hcr (List.mem_append_left _ (mem_of_mem_splitAll s0 p hp '\r' hRin))
    have hrl : rustLines (s0 ++ ['\n']) = splitAll s0 := by
      show (splitAll (s0 ++ ['\n'])).dropLast.map stripCr ++
          lastPiece (splitAll (s0 ++ ['\n'])).getLast? = splitAll s0
      rw [hsplit, List.dropLast_concat, List.getLast?_concat,
        map_stripCr_of_no_cr _ hnocr]
      simp [lastPiece]
    have hlines : (Buffer.read_file (s0 ++ ['\n'])).lines =
        (splitAll s0).map Line.from_string ++ [Line.new] := by
      show (if (if (s0 ++ ['\n']).getLast? = some '\n' then
          (rustLines (s0 ++ ['\n'])).map Line.from_string ++ [Line.new]
          else (rustLines (s0 ++ ['\n'])).map Line.from_string).isEmpty then
            [Line.new]
          else
            (if (s0 ++ ['\n']).getLast? = some '\n' then
              (rustLines (s0 ++ ['\n'])).map Line.from_string ++ [Line.new]
              else (rustLines (s0 ++ ['\n'])).map Line.from_string)) = _
      rw [hrl, if_pos hnl]
      have hne : (((splitAll s0).map Line.from_string ++ [Line.new]).isEmpty) = false := by
        simp
      rw [hne]
      rfl
    rw [buffer_to_string_eq, hlines, List.map_append, map_as_str_from_string]
    have hmapnew : ([Line.new].map Line.as_str) = [([] : List Char)] := rfl
    rw [hmapnew, List.getLast?_concat, if_pos rfl, List.dropLast_concat,
      joinNl_splitAll]
  · by_cases hT : T = []
    · subst hT
      decide
    · rw [if_neg hnl]
      rcases List.eq_nil_or_concat T with rfl | ⟨s0, c, rfl⟩
      · exact absurd rfl hT
      · rw [List.concat_eq_append] at hcr hnl ⊢
        have hc : ¬ c = '\n' := by
          intro hcc
          exact hnl (by rw [hcc]; exact List.getLast?_concat _)
        obtain ⟨ps, p, h1, h2⟩ := splitAll_concat_ne s0 c hc
        have hpc_ne : p ++ [c] ≠ [] := by simp
        have hnocr : ∀ q ∈ ps, '\r' ∉ q := by
          intro q hq hRin
          have hqmem : q ∈ splitAll (s0 ++ [c]) := by
            rw [h2]
            exact List.mem_append_left _ hq
          exact hcr (mem_of_mem_splitAll _ q hqmem '\r' hRin)
        have hrl : rustLines (s0 ++ [c]) = splitAll (s0 ++ [c]) := by
          show (splitAll (s0 ++ [c])).dropLast.map stripCr ++
              lastPiece (splitAll (s0 ++ [c])).getLast? = splitAll (s0 ++ [c])
          rw [h2, List.dropLast_concat, List.getLast?_concat,
            map_stripCr_of_no_cr _ hnocr, lastPiece_some_ne _ hpc_ne]
        have hlines : (Buffer.read_file (s0 ++ [c])).lines =
            (splitAll (s0 ++ [c])).map Line.from_string := by
          show (if (if (s0 ++ [c]).getLast? = some '\n' then
              (rustLines (s0 ++ [c])).map Line.from_string ++ [Line.new]
              else (rustLines (s0 ++ [c])).map Line.from_string).isEmpty then
                [Line.new]
              else
                (if (s0 ++ [c]).getLast? = some '\n' then
                  (rustLines (s0 ++ [c])).map Line.from_string ++ [Line.new]
                  else (rustLines (s0 ++ [c])).map Line.from_string)) = _
          rw [hrl, if_neg hnl]
          have hne : (((splitAll (s0 ++ [c])).map Line.from_string).isEmpty) = false := by
            cases hsp : (splitAll (s0 ++ [c])).map Line.from_string with
            | nil => exact absurd (List.map_eq_nil_iff.mp hsp) (splitAll_ne_nil _)
            | cons a as => rfl
          rw [hne]
          rfl
        rw [buffer_to_string_eq, hlines, map_as_str_from_string]
        have hlast2 : (splitAll (s0 ++ [c])).getLast? = some (p ++ [c]) := by
          rw [h2]
          exact List.getLast?_concat _
        rw [hlast2]
        rw [if_neg (by simp)]
        exact joinNl_splitAll _

/-- Claim C3: delete_char returns false and leaves the buffer unchanged
exactly at the document start (0, 0); at any other valid location it
returns true and mutates the buffer: with x positive it removes grapheme
cluster x - 1 from line y and keeps the line count, and at column 0 of a
later row it removes line y, appending its text to line y - 1, shrinking
the line count by one. -/
theorem C3_delete_char_spec (b : Buffer) (x y : Nat)
    (hwf : (b.lines.getD y Line.new).WF)
    (hy : y < b.lines.length)
    (hx : x ≤ (b.lines.getD y Line.new).grapheme_len) :
    ((b.delete_char ⟨0, 0⟩).1 = false ∧ (b.delete_char ⟨0, 0⟩).2 = b) ∧
    (¬(x = 0 ∧ y = 0) →
      (b.delete_char ⟨x, y⟩).1 = true ∧ (b.delete_char ⟨x, y⟩).2 ≠ b) ∧
    (0 < x →
      (b.delete_char ⟨x, y⟩).2.lines =
        b.lines.set y ((b.lines.getD y Line.new).remove (x - 1)) ∧
      ((b.lines.getD y Line.new).remove (x - 1)).raw =
        ((segment (b.lines.getD y Line.new).raw).eraseIdx (x - 1)).flatten ∧
      (b.delete_char ⟨x, y⟩).2.lines.length = b.lines.length) ∧
    (x = 0 → 0 < y →
      (b.delete_char ⟨x, y⟩).2.lines =
        b.lines.take (y - 1) ++
          ((b.lines.getD (y - 1) Line.new).push_str (b.lines.getD y Line.new).raw) ::
          b.lines.drop (y + 1) ∧
      (b.delete_char ⟨x, y⟩).2.lines.length + 1 = b.lines.length) := by
  have hlen := Line.grapheme_len_eq _ hwf
  refine ⟨⟨by simp [Buffer.delete_char], by simp [Buffer.delete_char]⟩, ?_, ?_, ?_⟩
  · intro hne
    by_cases hxpos : 0 < x
    · rw [delete_char_pos b x y hy hxpos]
      refine ⟨rfl, ?_⟩
      intro hbad
      have hlines : b.lines.set y ((b.lines.getD y Line.new).remove (x - 1)) =
          b.lines := congrArg Buffer.lines hbad
      have h1 : (b.lines.set y ((b.lines.getD y Line.new).remove (x - 1)))[y]? =
          some ((b.lines.getD y Line.new).remove (x - 1)) :=
        List.getElem?_set_self hy
      rw [hlines, List.getElem?_eq_getElem hy] at h1
      have hgetd : b.lines.getD y Line.new = b.lines[y] := by
        rw [List.getD_eq_getElem?_getD, List.getElem?_eq_getElem hy]
        rfl
      have hxe : x - 1 < (segment (b.lines.getD y Line.new).raw).length := by omega
      have hshort := Line.remove_raw_length _ hwf (x - 1) hxe
      have heq : b.lines[y] = (b.lines.getD y Line.new).remove (x - 1) := by
        exact Option.some.inj h1
      rw [← heq, ← hgetd] at hshort
      omega
    · have hx0 : x = 0 := by omega
      have hypos : 0 < y := by
        rcases Nat.eq_zero_or_pos y with h | h
        · exact absurd ⟨hx0, h⟩ hne
        · exact h
      subst hx0
      rw [delete_char_join b y hy hypos]
      refine ⟨rfl, ?_⟩
      intro hbad
      have hbad2 : (⟨(b.lines.eraseIdx y).set (y - 1)
          (((b.lines.eraseIdx y).getD (y - 1) Line.new).push_str
            ((b.lines.getD y Line.new).raw))⟩ : Buffer) = b := hbad
      have hlines : (b.lines.eraseIdx y).set (y - 1)
          (((b.lines.eraseIdx y).getD (y - 1) Line.new).push_str
            ((b.lines.getD y Line.new).raw)) = b.lines := congrArg Buffer.lines hbad2
      have hlen2 : ((b.lines.eraseIdx y).set (y - 1)
          (((b.lines.eraseIdx y).getD (y - 1) Line.new).push_str
            ((b.lines.getD y Line.new).raw))).length = b.lines.length - 1 := by
        rw [List.length_set, List.length_eraseIdx, if_pos hy]
      rw [hlines] at hlen2
      omega
  · intro hxpos
    rw [delete_char_pos b x y hy hxpos]
    exact ⟨rfl, Line.remove_raw _ hwf (x - 1) (by omega), by simp [List.length_set]⟩
  · intro hx0 hypos
    subst hx0
    rw [delete_char_join b y hy hypos]
    constructor
    · show ((b.lines.eraseIdx y).set (y - 1)
          (((b.lines.eraseIdx y).getD (y - 1) Line.new).push_str
            ((b.lines.getD y Line.new).raw))) = _
      rw [getD_eraseIdx_pred b.lines y hypos, set_eraseIdx_join_form _ _ _ hy hypos]
    · show ((b.lines.eraseIdx y).set (y - 1)
          (((b.lines.eraseIdx y).getD (y - 1) Line.new).push_str
            ((b.lines.getD y Line.new).raw))).length + 1 = b.lines.length
      rw [List.length_set, List.length_eraseIdx, if_pos hy]
      omega

/-- Witness for C3 on the two line buffer ab, c at location (0, 1), the
line join case. -/
theorem C3_delete_char_spec_witness :
    (Buffer.delete_char ⟨[Line.from_string ['a', 'b'], Line.from_string ['c']]⟩
      ⟨0, 1⟩).1 = true :=
  ((C3_delete_char_spec ⟨[Line.from_string ['a', 'b'], Line.from_string ['c']]⟩ 0 1
    (by decide) (by decide) (by decide)).2.1 (by simp)).1

/-- Claim C6: in Insert mode the newline key splits the current line at the
cursor grapheme: line cy is replaced by its first cx grapheme clusters,
a new line cy + 1 holds the remaining clusters, the cursor moves to
(0, cy + 1), the mode is kept, every other line is preserved, and no
grapheme cluster is corrupted: both halves segment exactly into the
original cluster lists. -/
theorem C6_newline_split (st : EditorState)
    (hwf : (st.lines.getD st.cy Line.new).WF)
    (hy : st.cy < st.lines.length)
    (hx : st.cx ≤ (st.lines.getD st.cy Line.new).grapheme_len) :
    (st.editNewline).cx = 0 ∧
    (st.editNewline).cy = st.cy + 1 ∧
    (st.editNewline).mode = st.mode ∧
    (st.editNewline).lines.length = st.lines.length + 1 ∧
    ((st.editNewline).lines.getD st.cy Line.new).raw =
      ((segment (st.lines.getD st.cy Line.new).raw).take st.cx).flatten ∧
    segment ((st.editNewline).lines.getD st.cy Line.new).raw =
      (segment (st.lines.getD st.cy Line.new).raw).take st.cx ∧
    ((st.editNewline).lines.getD st.cy Line.new).grapheme_len = st.cx ∧
    ((st.editNewline).lines.getD (st.cy + 1) Line.new).raw =
      ((segment (st.lines.getD st.cy Line.new).raw).drop st.cx).flatten ∧
    segment ((st.editNewline).lines.getD (st.cy + 1) Line.new).raw =
      (segment (st.lines.getD st.cy Line.new).raw).drop st.cx ∧
    (∀ j, j < st.cy → (st.editNewline).lines[j]? = st.lines[j]?) ∧
    (∀ j, st.cy + 1 < j → (st.editNewline).lines[j]? = st.lines[j - 1]?) := by
  have hlen := Line.grapheme_len_eq _ hwf
  have hoff : (st.lines.getD st.cy Line.new).graphemes.getD st.cx 0 =
      bsize (((segment (st.lines.getD st.cy Line.new).raw).take st.cx).flatten) := by
    rw [List.getD_eq_getElem?_getD, Line.graphemes_getElem? _ hwf st.cx (by omega)]
    rfl
  have hline : Buffer.line_at ⟨st.lines⟩ st.cy = (st.lines.getD st.cy Line.new).raw :=
    line_at_eq _ _ hy
  have hred : st.editNewline = ⟨listInsertAt (st.cy + 1)
      (Line.from_string
        (((segment (st.lines.getD st.cy Line.new).raw).drop st.cx).flatten))
      (st.lines.set st.cy (Line.from_string
        (((segment (st.lines.getD st.cy Line.new).raw).take st.cx).flatten))),
      0, st.cy + 1, st.mode⟩ := by
    simp only [EditorState.editNewline]
    rw [hline, hoff, takeBytes_boundary, dropBytes_boundary]
  rw [hred]
  have hsetlen : (st.lines.set st.cy (Line.from_string
      (((segment (st.lines.getD st.cy Line.new).raw).take st.cx).flatten))).length =
      st.lines.length := List.length_set _ _ _
  have hcy1 : (listInsertAt (st.cy + 1)
      (Line.from_string
        (((segment (st.lines.getD st.cy Line.new).raw).drop st.cx).flatten))
      (st.lines.set st.cy (Line.from_string
        (((segment (st.lines.getD st.cy Line.new).raw).take st.cx).flatten))))[st.cy]? =
      some (Line.from_string
        (((segment (st.lines.getD st.cy Line.new).raw).take st.cx).flatten)) := by
    rw [listInsertAt_getElem?_lt _ _ _ _ (by omega) (by rw [hsetlen]; omega)]
    exact List.getElem?_set_self hy
  have hcy2 : (listInsertAt (st.cy + 1)
      (Line.from_string
        (((segment (st.lines.getD st.cy Line.new).raw).drop st.cx).flatten))
      (st.lines.set st.cy (Line.from_string
        (((segment (st.lines.getD st.cy Line.new).raw).take st.cx).flatten))))[st.cy + 1]? =
      some (Line.from_string
        (((segment (st.lines.getD st.cy Line.new).raw).drop st.cx).flatten)) :=
    listInsertAt_getElem?_self _ _ _ (by rw [hsetlen]; omega)
  refine ⟨rfl, rfl, rfl, ?_, ?_, ?_, ?_, ?_, ?_, ?_, ?_⟩
  · show (listInsertAt _ _ _).length = st.lines.length + 1
    rw [listInsertAt_length, hsetlen]
  · show ((listInsertAt _ _ _).getD st.cy Line.new).raw = _
    rw [List.getD_eq_getElem?_getD, hcy1]
    rfl
  · show segment ((listInsertAt _ _ _).getD st.cy Line.new).raw = _
    rw [List.getD_eq_getElem?_getD, hcy1]
    exact segment_take _ _
  · show ((listInsertAt _ _ _).getD st.cy Line.new).grapheme_len = st.cx
    rw [List.getD_eq_getElem?_getD, hcy1]
    show (Line.from_string _).grapheme_len = st.cx
    rw [Line.grapheme_len_eq _ (Line.from_string_WF _), Line.from_string_raw,
      segment_take, List.length_take]
    omega
  · show ((listInsertAt _ _ _).getD (st.cy + 1) Line.new).raw = _
    rw [List.getD_eq_getElem?_getD, hcy2]
    rfl
  · show segment ((listInsertAt _ _ _).getD (st.cy + 1) Line.new).raw = _
    rw [List.getD_eq_getElem?_getD, hcy2]
    exact segment_drop _ _
  · intro j hj
    show (listInsertAt _ _ _)[j]? = st.lines[j]?
    rw [listInsertAt_getElem?_lt _ _ _ _ (by omega) (by rw [hsetlen]; omega)]
    exact List.getElem?_set_ne (by omega)
  · intro j hj
    show (listInsertAt _ _ _)[j]? = st.lines[j - 1]?
    rw [listInsertAt_getElem?_gt _ _ _ _ (by omega)]
    exact List.getElem?_set_ne (by omega)

/-- Witness for C6: splitting the line abc at cursor column 1. -/
theorem C6_newline_split_witness :
    (EditorState.editNewline ⟨[Line.from_string ['a', 'b', 'c']], 1, 0, Mode.edit⟩).cx = 0 :=
  (C6_newline_split ⟨[Line.from_string ['a', 'b', 'c']], 1, 0, Mode.edit⟩
    (by decide) (by decide) (by decide)).1

/-- Witness for C1 amended at the text a, newline, b, which does not end
with a newline and round-trips exactly. -/
theorem C1_roundtrip_amended_witness :
    Buffer.buffer_to_string (Buffer.read_file ['a', '\n', 'b']) =
      if (['a', '\n', 'b'] : List Char).getLast? = some '\n' then
        (['a', '\n', 'b'] : List Char).dropLast
      else ['a', '\n', 'b'] :=
  C1_roundtrip_amended ['a', '\n', 'b'] (by decide)

end Vvile
